import Mathlib

/-!
A shallow embedding of the `simplecache` Go package (`src/main.go`).

Modelling conventions:
* `time.Time` is modelled as a `Nat`; `0` is Go's zero `time.Time`
  (`IsZero`), `a.Before b` is `a < b`, `a.After b` is `b < a`, and
  `time.Now()` inside one operation or tick pass is modelled as a single
  fixed `now` parameter.
* The Go key type `any` is modelled by `GoAny`: a key is either a string
  (`GoAny.str`) or some non-string value (`GoAny.other`, tagged by a `Nat`).
  The only structure of `any` the code uses is equality (map keys) and the
  type assertion `key.(string)` in the expire pass, which `GoAny` captures.
* The Go maps `c.data` and `c.prev` are modelled as association lists with
  (invariantly) no duplicate keys; `delete` removes the binding, insertion
  replaces in place or appends.
* `unsafe.Sizeof(item) + unsafe.Sizeof(item.Value) + unsafe.Sizeof(item.Expires)`
  is a compile-time constant for a fixed value type `T`, modelled by the
  parameter `sz : Nat`.
* Go runtime panics are modelled by `Except GoFault`: `nonPositiveTicker`
  is the panic of `time.NewTicker` on a non-positive `time.Duration`,
  `nilFuncCall` the panic of calling a nil `compareFunc`, and
  `badStringCast` the panic of a failed `key.(string)` assertion.
* Middlewares are external code; the embedding records their invocations:
  expiry middlewares are identified by the `Nat`s in `Config.expiryMws`
  (in registration order) and each invocation is logged as
  `(middleware id, key string, item)`.  The create/update/delete batches
  dispatched after the locked section are returned in `TickOut`.
-/

namespace SimpleCache

/-- A value of Go's `any` type used as a cache key: either a string or a
non-string value (the code only ever distinguishes these two cases, via the
type assertion `key.(string)`). -/
inductive GoAny where
  | str (s : String)
  | other (n : Nat)
deriving DecidableEq

/-- Whether the `key.(string)` type assertion would succeed. -/
def GoAny.isStr : GoAny → Bool
  | .str _ => true
  | .other _ => false

/-- The string carried by a string key (junk on non-string keys; only used
under an `isStr` hypothesis). -/
def GoAny.strOf : GoAny → String
  | .str s => s
  | .other _ => ""

/-- `Item[T]` from `src/main.go`: a stored value with its absolute expiry
time (`0` = Go's zero `time.Time` = never expires). -/
structure Item (T : Type) where
  value : T
  expires : Nat
deriving DecidableEq

/-- Go runtime panics the embedded code can raise. -/
inductive GoFault where
  /-- `time.NewTicker` panics on a non-positive interval. -/
  | nonPositiveTicker
  /-- calling the nil `compareFunc` panics. -/
  | nilFuncCall
  /-- a failed `key.(string)` type assertion panics. -/
  | badStringCast
deriving DecidableEq

/-- The keys of an association list, in order. -/
def keys {α β : Type} (l : List (α × β)) : List α := l.map Prod.fst

/-- Go map read `m[k]`: the binding of the first (with no duplicate keys:
the only) entry for `k`. -/
def alookup {T : Type} (k : GoAny) : List (GoAny × Item T) → Option (Item T)
  | [] => none
  | (k1, v) :: rest => if k1 = k then some v else alookup k rest

/-- Go map write `m[k] = v`: replace the binding in place, or append. -/
def ainsert {T : Type} (k : GoAny) (v : Item T) : List (GoAny × Item T) → List (GoAny × Item T)
  | [] => [(k, v)]
  | (k1, v1) :: rest => if k1 = k then (k, v) :: rest else (k1, v1) :: ainsert k v rest

/-- Go map `delete(m, k)`: remove the (first) binding for `k`. -/
def aerase {T : Type} (k : GoAny) : List (GoAny × Item T) → List (GoAny × Item T)
  | [] => []
  | (k1, v1) :: rest => if k1 = k then rest else (k1, v1) :: aerase k rest

/-- The mutable state of `Cache[T]`: the live map `data`, the snapshot
`prev`, the four `Metrics` entries, and the three persistent `c.updates`
batch slices. -/
structure CacheState (T : Type) where
  data : List (GoAny × Item T)
  prev : List (GoAny × Item T)
  hits : Nat
  misses : Nat
  items : Nat
  mem : Int
  updCreated : List T
  updUpdated : List T
  updDeleted : List T
deriving DecidableEq

/-- `New[T]()`: empty maps, zeroed metrics, empty batches. -/
def newCache (T : Type) : CacheState T :=
  ⟨[], [], 0, 0, 0, 0, [], [], []⟩

/-- The configuration fields of `Cache[T]` fixed before `Maintain` runs:
tick interval (a `time.Duration`, i.e. an integer number of nanoseconds),
the nilable equality predicate, and the registered expiry middlewares
(identified by `Nat`s, in registration order). -/
structure Config (T : Type) where
  interval : Int
  compareFunc : Option (T → T → Bool)
  expiryMws : List Nat

/-- The expiry test used by `Get`, `GetAll` and the expire pass:
`!item.Expires.IsZero() && item.Expires.Before(now)`. -/
def goExpired {T : Type} (it : Item T) (now : Nat) : Bool :=
  it.expires != 0 && decide (it.expires < now)

/-- `Cache.Set(key, value, expires...)`: the variadic expiry list keeps
only its first element (zero `time.Time` when empty); if the key already
exists its size estimate is subtracted before the new one is added. -/
def set {T : Type} (sz : Nat) (st : CacheState T) (key : GoAny) (value : T)
    (expires : List Nat) : CacheState T :=
  let expiration : Nat := match expires with
    | [] => 0
    | e :: _ => e
  let item : Item T := ⟨value, expiration⟩
  let mem1 : Int := match alookup key st.data with
    | some _ => st.mem - sz
    | none => st.mem
  let mem2 : Int := mem1 + sz
  let data1 := ainsert key item st.data
  { st with data := data1, mem := mem2, items := data1.length }

/-- `Cache.Get(key)`: miss (zero value, `false`, `misses` incremented) when
the key is absent or its expiry is non-zero and strictly before now;
otherwise hit (`hits` incremented). -/
def get {T : Type} [Inhabited T] (st : CacheState T) (key : GoAny) (now : Nat) :
    (T × Bool) × CacheState T :=
  match alookup key st.data with
  | none => ((default, false), { st with misses := st.misses + 1 })
  | some item =>
    if goExpired item now then ((default, false), { st with misses := st.misses + 1 })
    else ((item.value, true), { st with hits := st.hits + 1 })

/-- `Cache.GetAll()`: the values of entries whose expiry is zero or
strictly after now; reads only, the state is returned unchanged. -/
def getAll {T : Type} (st : CacheState T) (now : Nat) : List T × CacheState T :=
  ((st.data.filter (fun p => p.2.expires == 0 || decide (now < p.2.expires))).map
     (fun p => p.2.value), st)

/-- `Cache.Delete(key)`: remove the binding if present and update
`memoryUsageBytes` and `items`; otherwise leave the state untouched. -/
def deleteKey {T : Type} (sz : Nat) (st : CacheState T) (key : GoAny) : CacheState T :=
  match alookup key st.data with
  | some _ =>
    let data1 := aerase key st.data
    { st with data := data1, mem := st.mem - sz, items := data1.length }
  | none => st

/-- `Cache.DeleteAll()`: clear the map, zero `memoryUsageBytes` and
`items`. -/
def deleteAll {T : Type} (st : CacheState T) : CacheState T :=
  { st with data := [], mem := 0, items := 0 }

/-- `Cache.Maintain`'s first statement, `time.NewTicker(c.interval)`:
panics on a non-positive interval, otherwise proceeds to the loop.  No
other configuration (in particular not `compareFunc`) is examined. -/
def maintainStart {T : Type} (cfg : Config T) : Except GoFault Unit :=
  if cfg.interval ≤ 0 then .error .nonPositiveTicker else .ok ()

/-- The dispatch `for _, m := range c.expiryMiddlewares { m(key.(string), item) }`
for one expired entry: each registered expiry middleware is invoked once,
after the `key.(string)` assertion; a non-string key panics. -/
def invokeExpiry {T : Type} (mws : List Nat) (k : GoAny) (it : Item T) :
    Except GoFault (List (Nat × String × Item T)) :=
  match mws with
  | [] => .ok []
  | m :: rest =>
    match k with
    | .str s => (invokeExpiry rest (.str s) it).map (fun l => (m, s, it) :: l)
    | .other _ => .error .badStringCast

/-- The accumulator of the expire pass: the live map being pruned, the two
metrics it maintains, the `deleted` batch, the log of expiry-middleware
invocations, and the `processedDeletions` key set. -/
structure ExpAcc (T : Type) where
  data : List (GoAny × Item T)
  items : Nat
  mem : Int
  deleted : List T
  calls : List (Nat × String × Item T)
  processed : List (GoAny)
deriving DecidableEq

/-- The expire pass of a tick (`// Remove expired items` in `Maintain`):
iterate over the entries of the map; each expired one is appended to the
`deleted` batch, dispatched to every expiry middleware, removed from the
live map with `memoryUsageBytes` and `items` updated, and recorded in
`processedDeletions`. -/
def expireLoop {T : Type} (mws : List Nat) (now : Nat) (sz : Nat) :
    List (GoAny × Item T) → ExpAcc T → Except GoFault (ExpAcc T)
  | [], acc => .ok acc
  | (k, it) :: rest, acc =>
    if goExpired it now then
      match invokeExpiry mws k it with
      | .error e => .error e
      | .ok calls =>
        let d := aerase k acc.data
        expireLoop mws now sz rest
          { data := d, items := d.length, mem := acc.mem - sz,
            deleted := acc.deleted ++ [it.value], calls := acc.calls ++ calls,
            processed := acc.processed ++ [k] }
    else
      expireLoop mws now sz rest acc

/-- The created/updated pass (`// Check for created or updated records`):
for each remaining entry, a key absent from the snapshot is appended to
`created`; a present key is compared with `compareFunc` (panicking when it
is nil) and appended to `updated` when not equal. -/
def cuLoop {T : Type} (cmp : Option (T → T → Bool)) (prev : List (GoAny × Item T)) :
    List (GoAny × Item T) → List T → List T → Except GoFault (List T × List T)
  | [], cs, us => .ok (cs, us)
  | (k, it) :: rest, cs, us =>
    match alookup k prev with
    | none => cuLoop cmp prev rest (cs ++ [it.value]) us
    | some p =>
      match cmp with
      | none => .error .nilFuncCall
      | some f =>
        if f it.value p.value then cuLoop cmp prev rest cs us
        else cuLoop cmp prev rest cs (us ++ [it.value])

/-- The deleted pass (`// Check for deleted records excluding already
processed`): a snapshot key absent from the live map and not in
`processedDeletions` has its last known value appended to `deleted`. -/
def deletedLoop {T : Type} (d : List (GoAny × Item T)) (pr : List GoAny) :
    List (GoAny × Item T) → List T → List T
  | [], del => del
  | (k, q) :: rest, del =>
    match alookup k d with
    | some _ => deletedLoop d pr rest del
    | none =>
      if k ∈ pr then deletedLoop d pr rest del
      else deletedLoop d pr rest (del ++ [q.value])

/-- The batches a tick dispatches after releasing the lock, plus the log of
expiry-middleware invocations made during the expire pass. -/
structure TickOut (T : Type) where
  created : List T
  updated : List T
  deleted : List T
  expiryCalls : List (Nat × String × Item T)
deriving DecidableEq

/-- One tick of `Maintain` (the `case <-ticker.C` body): the expire pass,
the created/updated pass, the deleted pass, the wholesale replacement of
the snapshot by a copy of the live map, then (after unlocking) dispatch of
the three batches and their truncation to length 0. -/
def tick {T : Type} (cfg : Config T) (sz : Nat) (now : Nat) (st : CacheState T) :
    Except GoFault (CacheState T × TickOut T) :=
  match expireLoop cfg.expiryMws now sz st.data
      ⟨st.data, st.items, st.mem, st.updDeleted, [], []⟩ with
  | .error e => .error e
  | .ok a =>
    match cuLoop cfg.compareFunc st.prev a.data st.updCreated st.updUpdated with
    | .error e => .error e
    | .ok (cs, us) =>
      let del := deletedLoop a.data a.processed st.prev a.deleted
      .ok ({ data := a.data, prev := a.data, hits := st.hits, misses := st.misses,
             items := a.items, mem := a.mem,
             updCreated := [], updUpdated := [], updDeleted := [] },
           ⟨cs, us, del, a.calls⟩)

/-- The condition under which the created/updated pass classifies an entry
as created: its key is absent from the snapshot. -/
def cuNew {T : Type} (prev : List (GoAny × Item T)) (p : GoAny × Item T) : Bool :=
  (alookup p.1 prev).isNone

/-- The condition under which the created/updated pass classifies an entry
as updated: its key is in the snapshot and the predicate rejects the pair. -/
def cuUpd {T : Type} (f : T → T → Bool) (prev : List (GoAny × Item T))
    (p : GoAny × Item T) : Bool :=
  match alookup p.1 prev with
  | some q => !(f p.2.value q.value)
  | none => false

/-- One externally issued Store mutation, or one tick. -/
inductive CacheOp (T : Type) where
  | setOp (key : GoAny) (value : T) (expires : List Nat)
  | delOp (key : GoAny)
  | delAllOp
  | tickOp (now : Nat)

/-- Execute one operation.  A tick that panics aborts the program; its
(unobservable) state is modelled as unchanged. -/
def execOp {T : Type} (cfg : Config T) (sz : Nat) (st : CacheState T) :
    CacheOp T → CacheState T
  | .setOp k v es => set sz st k v es
  | .delOp k => deleteKey sz st k
  | .delAllOp => deleteAll st
  | .tickOp now =>
    match tick cfg sz now st with
    | .ok (st1, _) => st1
    | .error _ => st

/-- Execute a sequence of operations from a starting state. -/
def execOps {T : Type} (cfg : Config T) (sz : Nat) (st : CacheState T)
    (ops : List (CacheOp T)) : CacheState T :=
  ops.foldl (execOp cfg sz) st

/-- The sum of the per-item size estimates of the entries of a map. -/
def sizeEstimates {T : Type} (sz : Nat) (l : List (GoAny × Item T)) : Int :=
  (l.map (fun _ => (sz : Int))).sum

/-- The metrics invariant of claim C3: no duplicate keys, `items` is the
entry count, `memoryUsageBytes` is the summed size estimates. -/
def WF {T : Type} (sz : Nat) (st : CacheState T) : Prop :=
  (keys st.data).Nodup ∧ st.items = st.data.length ∧
    st.mem = sizeEstimates sz st.data

/-- The phase of the `Maintain` goroutine. -/
inductive LoopPhase where
  | notStarted
  | running
  | stopped
deriving DecidableEq

/-- The cancellation-relevant state of the whole program: the phase of the
`Maintain` goroutine and the number of callers currently blocked in
`Stop`'s send on the unbuffered `stopChan`. -/
structure StopSys where
  phase : LoopPhase
  pendingStops : Nat
deriving DecidableEq

/-- The transitions of the cancellation protocol of `src/main.go`:
`Cache.Stop` is `c.stopChan <- struct{}{}` on the unbuffered channel made
by `New`, so a `Stop` caller blocks (`callStop`) until the `Maintain`
loop's `select` receives the value (`rendezvous`), which makes `Maintain`
return; a running loop may instead service a tick (`tickStep`), and
`Maintain` may be started at any point (`startLoop`). -/
inductive StopStep : StopSys → StopSys → Prop where
  | callStop (p : LoopPhase) (n : Nat) : StopStep ⟨p, n⟩ ⟨p, n + 1⟩
  | startLoop (n : Nat) : StopStep ⟨.notStarted, n⟩ ⟨.running, n⟩
  | tickStep (n : Nat) : StopStep ⟨.running, n⟩ ⟨.running, n⟩
  | rendezvous (n : Nat) : StopStep ⟨.running, n + 1⟩ ⟨.stopped, n⟩

/-! ### Concrete fixtures used by witnesses and counterexamples -/

/-- A configuration with a 500ns interval, equality-of-values predicate and
one registered expiry middleware (id 7). -/
def cfgW : Config Nat := ⟨500, some (fun a b => a == b), [7]⟩

/-- A cache state as of some tick boundary: `"b"` expires at time 5, `"c"`
was updated since the snapshot, `"d"` is new, `"e"` was deleted. -/
def stW : CacheState Nat :=
  ⟨[(.str "a", ⟨1, 0⟩), (.str "b", ⟨2, 5⟩), (.str "c", ⟨3, 0⟩), (.str "d", ⟨4, 0⟩)],
   [(.str "a", ⟨1, 0⟩), (.str "c", ⟨9, 0⟩), (.str "e", ⟨5, 0⟩)],
   0, 0, 4, 96, [], [], []⟩

/-- The state after running `tick cfgW 24 10 stW`: `"b"` expired, the
snapshot equals the store. -/
def stWpost : CacheState Nat :=
  ⟨[(.str "a", ⟨1, 0⟩), (.str "c", ⟨3, 0⟩), (.str "d", ⟨4, 0⟩)],
   [(.str "a", ⟨1, 0⟩), (.str "c", ⟨3, 0⟩), (.str "d", ⟨4, 0⟩)],
   0, 0, 3, 72, [], [], []⟩

/-- The batches dispatched by `tick cfgW 24 10 stW`. -/
def outW : TickOut Nat := ⟨[4], [3], [2, 5], [(7, "b", ⟨2, 5⟩)]⟩

/-- A configuration with a valid interval but no equality predicate. -/
def cfgNone : Config Nat := ⟨1, none, []⟩

/-- A state whose store and snapshot share the key `"a"`, so the
created/updated pass must call the equality predicate. -/
def stC5 : CacheState Nat :=
  ⟨[(.str "a", ⟨0, 0⟩)], [(.str "a", ⟨0, 0⟩)], 0, 0, 1, 24, [], [], []⟩

/-- A state holding one expired entry under a non-string key. -/
def stBad : CacheState Nat :=
  ⟨[(.other 3, ⟨1, 5⟩)], [], 0, 0, 1, 24, [], [], []⟩

/-! ### Association-list lemmas -/

theorem alookup_eq_none {T : Type} {k : GoAny} {l : List (GoAny × Item T)} :
    alookup k l = none ↔ k ∉ keys l := by
  induction l with
  | nil => simp [alookup, keys]
  | cons p rest ih =>
    obtain ⟨k1, v⟩ := p
    by_cases h : k1 = k
    · subst h
      simp [alookup, keys]
    · have hne : ¬(k = k1) := fun hc => h hc.symm
      simp [alookup, keys, h, hne, ih]

theorem mem_of_alookup {T : Type} {k : GoAny} {v : Item T} {l : List (GoAny × Item T)}
    (h : alookup k l = some v) : (k, v) ∈ l := by
  induction l with
  | nil => simp [alookup] at h
  | cons p rest ih =>
    obtain ⟨k1, v1⟩ := p
    by_cases hk : k1 = k
    · subst hk
      simp [alookup] at h
      simp [h]
    · simp [alookup, hk] at h
      simp [ih h]

theorem alookup_isSome_iff {T : Type} {k : GoAny} {l : List (GoAny × Item T)} :
    (alookup k l).isSome = true ↔ k ∈ keys l := by
  rcases h : alookup k l with _ | v
  · exact iff_of_false (by simp) (alookup_eq_none.mp h)
  · refine iff_of_true rfl ?_
    by_contra hk
    rw [alookup_eq_none.mpr hk] at h
    exact Option.noConfusion h

theorem alookup_ainsert_self {T : Type} (k : GoAny) (v : Item T)
    (l : List (GoAny × Item T)) : alookup k (ainsert k v l) = some v := by
  induction l with
  | nil => simp [ainsert, alookup]
  | cons p rest ih =>
    obtain ⟨k1, v1⟩ := p
    by_cases h : k1 = k <;> simp [ainsert, alookup, h, ih]

theorem keys_ainsert {T : Type} (k : GoAny) (v : Item T) (l : List (GoAny × Item T)) :
    keys (ainsert k v l) = if k ∈ keys l then keys l else keys l ++ [k] := by
  induction l with
  | nil => simp [ainsert, keys]
  | cons p rest ih =>
    obtain ⟨k1, v1⟩ := p
    by_cases h : k1 = k
    · subst h
      simp [ainsert, keys]
    · have hne : ¬(k = k1) := fun hc => h hc.symm
      simp only [ainsert, h, if_false, keys, List.map_cons] at ih ⊢
      rw [ih]
      by_cases hm : k ∈ List.map Prod.fst rest
      · simp [hm, hne]
      · simp [hm, hne]

theorem length_ainsert {T : Type} (k : GoAny) (v : Item T) (l : List (GoAny × Item T)) :
    (ainsert k v l).length = if k ∈ keys l then l.length else l.length + 1 := by
  induction l with
  | nil => simp [ainsert, keys]
  | cons p rest ih =>
    obtain ⟨k1, v1⟩ := p
    by_cases h : k1 = k
    · subst h
      simp [ainsert, keys]
    · have hne : ¬(k = k1) := fun hc => h hc.symm
      have hmem : (k ∈ keys ((k1, v1) :: rest)) ↔ k ∈ keys rest := by
        simp [keys, hne]
      simp only [ainsert, h, if_false, List.length_cons]
      rw [ih]
      by_cases hm : k ∈ keys rest
      · rw [if_pos hm, if_pos (hmem.mpr hm)]
      · rw [if_neg hm, if_neg (fun hc => hm (hmem.mp hc))]

theorem nodup_keys_ainsert {T : Type} {k : GoAny} {v : Item T}
    {l : List (GoAny × Item T)} (h : (keys l).Nodup) :
    (keys (ainsert k v l)).Nodup := by
  rw [keys_ainsert]
  by_cases hm : k ∈ keys l
  · simpa [hm]
  · simp only [hm, if_false]
    exact List.Nodup.append h (List.nodup_singleton k) (by simpa using hm)

theorem aerase_sublist {T : Type} (k : GoAny) (l : List (GoAny × Item T)) :
    (aerase k l).Sublist l := by
  induction l with
  | nil => simp [aerase]
  | cons p rest ih =>
    obtain ⟨k1, v1⟩ := p
    by_cases h : k1 = k
    · subst h
      simp [aerase]
    · simpa [aerase, h] using List.Sublist.cons₂ (k1, v1) ih

theorem aerase_eq_filter {T : Type} {k : GoAny} {l : List (GoAny × Item T)}
    (h : (keys l).Nodup) :
    aerase k l = l.filter (fun p => !(decide (p.1 = k))) := by
  induction l with
  | nil => simp [aerase]
  | cons p rest ih =>
    obtain ⟨k1, v1⟩ := p
    simp only [keys, List.map_cons, List.nodup_cons] at h
    by_cases hk : k1 = k
    · subst hk
      have : rest.filter (fun p => !(decide (p.1 = k1))) = rest := by
        apply List.filter_eq_self.mpr
        intro a ha
        have hne : a.1 ≠ k1 := by
          intro hc
          exact h.1 (by rw [← hc]; exact List.mem_map_of_mem Prod.fst ha)
        simp [hne]
      simp [aerase, this]
    · simp [aerase, hk, ih h.2]

theorem length_aerase {T : Type} {k : GoAny} {l : List (GoAny × Item T)}
    (h : k ∈ keys l) : (aerase k l).length + 1 = l.length := by
  induction l with
  | nil => simp [keys] at h
  | cons p rest ih =>
    obtain ⟨k1, v1⟩ := p
    by_cases hk : k1 = k
    · simp [aerase, hk]
    · have hne : ¬(k = k1) := fun hc => hk hc.symm
      have hr : k ∈ keys rest := by
        simp only [keys, List.map_cons, List.mem_cons] at h
        rcases h with h1 | h1
        · exact absurd h1 hne
        · exact h1
      simp [aerase, hk, ih hr]

theorem nodup_keys_entry_eq {T : Type} {l : List (GoAny × Item T)}
    {p q : GoAny × Item T} (h : (keys l).Nodup) (hp : p ∈ l) (hq : q ∈ l)
    (hfst : p.1 = q.1) : p = q := by
  induction l with
  | nil => simp at hp
  | cons a rest ih =>
    simp only [keys, List.map_cons, List.nodup_cons] at h
    rcases List.mem_cons.mp hp with hp1 | hp1 <;>
      rcases List.mem_cons.mp hq with hq1 | hq1
    · rw [hp1, hq1]
    · exact absurd (hfst ▸ List.mem_map_of_mem Prod.fst hq1) (hp1 ▸ h.1)
    · exact absurd (hfst ▸ List.mem_map_of_mem Prod.fst hp1) (by rw [hq1] at hfst ⊢; exact hfst ▸ h.1)
    · exact ih h.2 hp1 hq1

theorem length_filter_key_le_one {T : Type} {l : List (GoAny × Item T)} {k : GoAny}
    (h : (keys l).Nodup) :
    (l.filter (fun p => decide (p.1 = k))).length ≤ 1 := by
  induction l with
  | nil => simp
  | cons p rest ih =>
    obtain ⟨k1, v1⟩ := p
    simp only [keys, List.map_cons, List.nodup_cons] at h
    by_cases hk : k1 = k
    · subst hk
      have : rest.filter (fun p => decide (p.1 = k1)) = [] := by
        apply List.filter_eq_nil_iff.mpr
        intro a ha
        have hne : a.1 ≠ k1 := by
          intro hc
          exact h.1 (by rw [← hc]; exact List.mem_map_of_mem Prod.fst ha)
        simp [hne]
      simp [this]
    · simpa [hk] using ih h.2

theorem length_filter_and_le {α : Type} (l : List α) (p q : α → Bool) :
    (l.filter (fun a => p a && q a)).length ≤ (l.filter p).length := by
  induction l with
  | nil => simp
  | cons a rest ih =>
    by_cases hp : p a <;> by_cases hq : q a <;> simp [hp, hq] <;> omega

theorem length_filter_split {α : Type} (l : List α) (p : α → Bool) :
    (l.filter p).length + (l.filter (fun a => !p a)).length = l.length := by
  induction l with
  | nil => simp
  | cons a rest ih =>
    by_cases hp : p a <;> simp [hp] <;> omega

/-! ### Characterizations of the tick passes -/

theorem invokeExpiry_str {T : Type} (mws : List Nat) (s : String) (it : Item T) :
    invokeExpiry mws (.str s) it = .ok (mws.map (fun m => (m, s, it))) := by
  induction mws with
  | nil => rfl
  | cons m rest ih => simp [invokeExpiry, ih, Except.map]

theorem invokeExpiry_ok {T : Type} {mws : List Nat} {k : GoAny} {it : Item T}
    {cs : List (Nat × String × Item T)} (h : invokeExpiry mws k it = .ok cs) :
    cs = mws.map (fun m => (m, k.strOf, it)) := by
  cases k with
  | str s =>
    rw [invokeExpiry_str] at h
    cases h
    rfl
  | other n =>
    cases mws with
    | nil =>
      cases h
      rfl
    | cons m rest => exact absurd h (by simp [invokeExpiry])

theorem invokeExpiry_err {T : Type} {mws : List Nat} {k : GoAny} (it : Item T)
    (hks : k.isStr = false) (hm : mws ≠ []) :
    invokeExpiry mws k it = .error .badStringCast := by
  cases k with
  | str s => simp [GoAny.isStr] at hks
  | other n =>
    cases mws with
    | nil => exact absurd rfl hm
    | cons m rest => rfl

theorem cuLoop_some_eq {T : Type} (f : T → T → Bool) (prev : List (GoAny × Item T)) :
    ∀ (l : List (GoAny × Item T)) (cs us : List T),
    cuLoop (some f) prev l cs us =
      .ok (cs ++ (l.filter (cuNew prev)).map (fun p => p.2.value),
           us ++ (l.filter (cuUpd f prev)).map (fun p => p.2.value)) := by
  intro l
  induction l with
  | nil => intro cs us; simp [cuLoop]
  | cons p rest ih =>
    intro cs us
    obtain ⟨k, it⟩ := p
    rcases hpv : alookup k prev with _ | q
    · simp [cuLoop, hpv, ih, cuNew, cuUpd, List.filter_cons]
    · by_cases hf : f it.value q.value = true
      · simp [cuLoop, hpv, hf, ih, cuNew, cuUpd, List.filter_cons]
      · simp [cuLoop, hpv, hf, ih, cuNew, cuUpd, List.filter_cons]

theorem cuLoop_none_err {T : Type} (prev : List (GoAny × Item T)) :
    ∀ (l : List (GoAny × Item T)) (cs us : List T) (p : GoAny × Item T),
    p ∈ l → (alookup p.1 prev).isSome = true →
    cuLoop (none : Option (T → T → Bool)) prev l cs us = .error .nilFuncCall := by
  intro l
  induction l with
  | nil => intro cs us p hp; simp at hp
  | cons a rest ih =>
    intro cs us p hp hsome
    obtain ⟨k, it⟩ := a
    rcases hpv : alookup k prev with _ | q
    · rcases List.mem_cons.mp hp with rfl | hp1
      · rw [hpv] at hsome
        simp at hsome
      · simpa [cuLoop, hpv] using ih (cs ++ [it.value]) us p hp1 hsome
    · simp [cuLoop, hpv]

theorem deletedLoop_eq {T : Type} (d : List (GoAny × Item T)) (pr : List GoAny) :
    ∀ (l : List (GoAny × Item T)) (del : List T),
    deletedLoop d pr l del =
      del ++ (l.filter (fun q => (alookup q.1 d).isNone && !(decide (q.1 ∈ pr)))).map
        (fun q => q.2.value) := by
  intro l
  induction l with
  | nil => intro del; simp [deletedLoop]
  | cons a rest ih =>
    intro del
    obtain ⟨k, q⟩ := a
    rcases hd : alookup k d with _ | v
    · by_cases hpr : k ∈ pr
      · simp [deletedLoop, hd, hpr, ih, List.filter_cons]
      · simp [deletedLoop, hd, hpr, ih, List.filter_cons]
    · simp [deletedLoop, hd, ih, List.filter_cons]

theorem expireLoop_ok_eq {T : Type} (mws : List Nat) (now sz : Nat) :
    ∀ (l : List (GoAny × Item T)) (acc a : ExpAcc T),
    (keys acc.data).Nodup → (keys l).Nodup → (∀ p ∈ l, p ∈ acc.data) →
    acc.items = acc.data.length →
    expireLoop mws now sz l acc = .ok a →
    a.data = acc.data.filter
        (fun p => !(decide (p.1 ∈ keys (l.filter (fun q => goExpired q.2 now))))) ∧
    a.items = a.data.length ∧
    a.mem = acc.mem - (l.filter (fun q => goExpired q.2 now)).length * (sz : Int) ∧
    a.deleted = acc.deleted ++
        (l.filter (fun q => goExpired q.2 now)).map (fun q => q.2.value) ∧
    a.calls = acc.calls ++ (l.filter (fun q => goExpired q.2 now)).flatMap
        (fun q => mws.map (fun m => (m, q.1.strOf, q.2))) ∧
    a.processed = acc.processed ++ keys (l.filter (fun q => goExpired q.2 now)) := by
  intro l
  induction l with
  | nil =>
    intro acc a hnd hnl hmem hit hrun
    cases hrun
    simp [keys, hit]
  | cons e rest ih =>
    intro acc a hnd hnl hmem hit hrun
    obtain ⟨k, it⟩ := e
    simp only [keys, List.map_cons, List.nodup_cons] at hnl
    by_cases hexp : goExpired it now = true
    · rw [expireLoop, if_pos hexp] at hrun
      rcases hinv : invokeExpiry mws k it with e1 | calls <;> rw [hinv] at hrun
      · exact absurd hrun (by simp)
      · have hcalls := invokeExpiry_ok hinv
        have hsub : (aerase k acc.data).Sublist acc.data := aerase_sublist k acc.data
        have hnd2 : (keys (aerase k acc.data)).Nodup :=
          List.Nodup.sublist (List.Sublist.map Prod.fst hsub) hnd
        have hmem2 : ∀ p ∈ rest, p ∈ aerase k acc.data := by
          intro p hp
          have hpk : ¬(p.1 = k) := by
            intro hc
            exact hnl.1 (hc ▸ List.mem_map_of_mem Prod.fst hp)
          rw [aerase_eq_filter hnd]
          simp only [List.mem_filter]
          exact ⟨hmem p (List.mem_cons_of_mem _ hp), by simp [hpk]⟩
        have ihr := ih _ a hnd2 hnl.2 hmem2 rfl hrun
        obtain ⟨h1, h2, h3, h4, h5, h6⟩ := ihr
        have hfc : (((k, it) :: rest).filter (fun q => goExpired q.2 now)) =
            (k, it) :: rest.filter (fun q => goExpired q.2 now) := by
          simp [List.filter_cons, hexp]
        refine ⟨?_, h2, ?_, ?_, ?_, ?_⟩
        · rw [h1, aerase_eq_filter hnd, List.filter_filter, hfc]
          apply List.filter_congr
          intro p hp
          by_cases h1k : p.1 = k <;>
            by_cases h2k : p.1 ∈ keys (rest.filter (fun q => goExpired q.2 now)) <;>
              simp [h1k, h2k, keys]
        · rw [h3, hfc]
          simp only [List.length_cons]
          push_cast
          ring
        · rw [h4, hfc]
          simp
        · rw [h5, hfc, hcalls]
          simp
        · rw [h6, hfc]
          simp [keys]
    · rw [expireLoop, if_neg hexp] at hrun
      have hmem2 : ∀ p ∈ rest, p ∈ acc.data :=
        fun p hp => hmem p (List.mem_cons_of_mem _ hp)
      have ihr := ih acc a hnd hnl.2 hmem2 hit hrun
      have hfc : (((k, it) :: rest).filter (fun q => goExpired q.2 now)) =
          rest.filter (fun q => goExpired q.2 now) := by
        simp [List.filter_cons, hexp]
      rw [hfc]
      exact ihr

theorem expireLoop_isOk {T : Type} (mws : List Nat) (now sz : Nat) :
    ∀ (l : List (GoAny × Item T)) (acc : ExpAcc T),
    (∀ p ∈ l, goExpired p.2 now = true → p.1.isStr = true) →
    ∃ a, expireLoop mws now sz l acc = .ok a := by
  intro l
  induction l with
  | nil => intro acc _; exact ⟨acc, rfl⟩
  | cons e rest ih =>
    intro acc hstr
    obtain ⟨k, it⟩ := e
    by_cases hexp : goExpired it now = true
    · have hks : k.isStr = true := hstr (k, it) (List.mem_cons_self _ _) hexp
      cases k with
      | str s =>
        obtain ⟨a, ha⟩ := ih _ (fun p hp => hstr p (List.mem_cons_of_mem _ hp))
        exact ⟨a, by rw [expireLoop, if_pos hexp, invokeExpiry_str]; exact ha⟩
      | other n => simp [GoAny.isStr] at hks
    · obtain ⟨a, ha⟩ := ih acc (fun p hp => hstr p (List.mem_cons_of_mem _ hp))
      exact ⟨a, by rw [expireLoop, if_neg hexp]; exact ha⟩

theorem expireLoop_err {T : Type} (mws : List Nat) (now sz : Nat) (hmws : mws ≠ []) :
    ∀ (l : List (GoAny × Item T)) (acc : ExpAcc T) (p : GoAny × Item T),
    p ∈ l → goExpired p.2 now = true → p.1.isStr = false →
    expireLoop mws now sz l acc = .error .badStringCast := by
  intro l
  induction l with
  | nil => intro acc p hp; simp at hp
  | cons e rest ih =>
    intro acc p hp hpexp hps
    obtain ⟨k, it⟩ := e
    by_cases hexp : goExpired it now = true
    · cases k with
      | str s =>
        have hp1 : p ∈ rest := by
          rcases List.mem_cons.mp hp with rfl | hp1
          · simp [GoAny.isStr] at hps
          · exact hp1
        rw [expireLoop, if_pos hexp, invokeExpiry_str]
        exact ih _ p hp1 hpexp hps
      | other n =>
        rw [expireLoop, if_pos hexp, invokeExpiry_err it (by simp [GoAny.isStr]) hmws]
    · have hp1 : p ∈ rest := by
        rcases List.mem_cons.mp hp with rfl | hp1
        · exact absurd hpexp hexp
        · exact hp1
      rw [expireLoop, if_neg hexp]
      exact ih acc p hp1 hpexp hps

theorem filter_not_mem_keys_filter {T : Type} {l : List (GoAny × Item T)}
    (hnd : (keys l).Nodup) (g : (GoAny × Item T) → Bool) :
    l.filter (fun p => !(decide (p.1 ∈ keys (l.filter g)))) =
      l.filter (fun p => !(g p)) := by
  apply List.filter_congr
  intro p hp
  by_cases hg : g p = true
  · have hm : p.1 ∈ keys (l.filter g) :=
      List.mem_map_of_mem Prod.fst (List.mem_filter.mpr ⟨hp, hg⟩)
    simp [hm, hg]
  · have hm : p.1 ∉ keys (l.filter g) := by
      intro hmem
      simp only [keys] at hmem
      obtain ⟨q, hq, hq1⟩ := List.mem_map.mp hmem
      have hq2 := List.mem_filter.mp hq
      have heq := nodup_keys_entry_eq hnd hq2.1 hp hq1
      rw [heq] at hq2
      exact hg hq2.2
    simp [hm, hg]

/-- Full characterization of a successful tick: under no duplicate keys,
string keys for expired entries, a configured predicate and a consistent
`items` metric, `tick` succeeds and every component of the result is the
corresponding filter of the pre-tick state. -/
theorem tick_ok_char {T : Type} (cfg : Config T) (sz now : Nat) (st : CacheState T)
    (f : T → T → Bool)
    (hnd : (keys st.data).Nodup)
    (hstr : ∀ p ∈ st.data, goExpired p.2 now = true → p.1.isStr = true)
    (hcmp : cfg.compareFunc = some f)
    (hit : st.items = st.data.length) :
    tick cfg sz now st = .ok
      ({ data := st.data.filter (fun q => !(goExpired q.2 now)),
         prev := st.data.filter (fun q => !(goExpired q.2 now)),
         hits := st.hits, misses := st.misses,
         items := (st.data.filter (fun q => !(goExpired q.2 now))).length,
         mem := st.mem - (st.data.filter (fun q => goExpired q.2 now)).length * (sz : Int),
         updCreated := [], updUpdated := [], updDeleted := [] },
       { created := st.updCreated ++
           ((st.data.filter (fun q => !(goExpired q.2 now))).filter (cuNew st.prev)).map
             (fun p => p.2.value),
         updated := st.updUpdated ++
           ((st.data.filter (fun q => !(goExpired q.2 now))).filter (cuUpd f st.prev)).map
             (fun p => p.2.value),
         deleted := (st.updDeleted ++
           (st.data.filter (fun q => goExpired q.2 now)).map (fun q => q.2.value)) ++
           (st.prev.filter (fun q =>
             (alookup q.1 (st.data.filter (fun p => !(goExpired p.2 now)))).isNone &&
             !(decide (q.1 ∈ keys (st.data.filter (fun p => goExpired p.2 now)))))).map
             (fun q => q.2.value),
         expiryCalls := (st.data.filter (fun q => goExpired q.2 now)).flatMap
           (fun q => cfg.expiryMws.map (fun m => (m, q.1.strOf, q.2))) }) := by
  obtain ⟨a, ha⟩ := expireLoop_isOk cfg.expiryMws now sz st.data
    ⟨st.data, st.items, st.mem, st.updDeleted, [], []⟩ hstr
  obtain ⟨h1, h2, h3, h4, h5, h6⟩ :=
    expireLoop_ok_eq cfg.expiryMws now sz st.data _ a hnd hnd (fun p hp => hp) hit ha
  have hpost : a.data = st.data.filter (fun q => !(goExpired q.2 now)) := by
    rw [h1]
    exact filter_not_mem_keys_filter hnd _
  simp only [tick, ha, hcmp, cuLoop_some_eq, deletedLoop_eq]
  rw [h2, hpost, h3, h4, h5, h6]
  simp

/-! ### The claims -/

/-- C1: in every tick's created/updated pass, each key remaining after the
expire pass is classified against the snapshot: absent → its value goes to
`created`; present but rejected by the equality predicate → `updated`;
present and equal → no event.  Each remaining entry contributes to at most
one batch, and (with no duplicate keys) each key yields at most one event
per tick, however many `Set` calls produced it. -/
theorem c1_created_updated_pass {T : Type} (cfg : Config T) (sz now : Nat)
    (st : CacheState T) (f : T → T → Bool)
    (hnd : (keys st.data).Nodup)
    (hstr : ∀ p ∈ st.data, goExpired p.2 now = true → p.1.isStr = true)
    (hcmp : cfg.compareFunc = some f)
    (hit : st.items = st.data.length)
    (hc : st.updCreated = []) (hu : st.updUpdated = []) :
    ∃ st1 out, tick cfg sz now st = .ok (st1, out) ∧
      out.created = ((st.data.filter (fun q => !(goExpired q.2 now))).filter
        (cuNew st.prev)).map (fun p => p.2.value) ∧
      out.updated = ((st.data.filter (fun q => !(goExpired q.2 now))).filter
        (cuUpd f st.prev)).map (fun p => p.2.value) ∧
      (∀ p : GoAny × Item T, ¬(cuNew st.prev p = true ∧ cuUpd f st.prev p = true)) ∧
      (∀ k : GoAny,
        ((st.data.filter (fun q => !(goExpired q.2 now))).filter
          (fun p => decide (p.1 = k) && (cuNew st.prev p || cuUpd f st.prev p))).length
          ≤ 1) := by
  refine ⟨_, _, tick_ok_char cfg sz now st f hnd hstr hcmp hit, ?_, ?_, ?_, ?_⟩
  · rw [hc]
    simp
  · rw [hu]
    simp
  · intro p ⟨h1, h2⟩
    rw [cuNew, Option.isNone_iff_eq_none] at h1
    rw [cuUpd, h1] at h2
    exact Bool.false_ne_true h2
  · intro k
    have hnd2 : (keys (st.data.filter (fun q => !(goExpired q.2 now)))).Nodup :=
      List.Nodup.sublist (List.Sublist.map Prod.fst (List.filter_sublist _)) hnd
    exact le_trans
      (length_filter_and_le _ (fun p => decide (p.1 = k))
        (fun p => cuNew st.prev p || cuUpd f st.prev p))
      (length_filter_key_le_one hnd2)

/-- C1 witness: the theorem applied to the concrete state `stW` at time 10. -/
theorem c1_witness :
    ∃ st1 out, tick cfgW 24 10 stW = .ok (st1, out) ∧
      out.created = ((stW.data.filter (fun q => !(goExpired q.2 10))).filter
        (cuNew stW.prev)).map (fun p => p.2.value) ∧
      out.updated = ((stW.data.filter (fun q => !(goExpired q.2 10))).filter
        (cuUpd (fun a b => a == b) stW.prev)).map (fun p => p.2.value) ∧
      (∀ p : GoAny × Item Nat,
        ¬(cuNew stW.prev p = true ∧ cuUpd (fun a b => a == b) stW.prev p = true)) ∧
      (∀ k : GoAny,
        ((stW.data.filter (fun q => !(goExpired q.2 10))).filter
          (fun p => decide (p.1 = k) &&
            (cuNew stW.prev p || cuUpd (fun a b => a == b) stW.prev p))).length ≤ 1) :=
  c1_created_updated_pass cfgW 24 10 stW (fun a b => a == b)
    (by decide) (by decide) rfl (by decide) rfl rfl

/-- C2: in every tick, each expired entry's value is appended to the
`deleted` batch, every expiry middleware is invoked once per expired entry
with its (string) key and item, the entry is removed with `items` and
`memoryUsageBytes` updated, and its key is marked; the deleted pass then
appends exactly the snapshot values of keys absent from the store and not
marked — which are exactly the keys absent from the pre-tick store — so the
deleted batch holds one entry per expired key plus one per externally
deleted key, with no duplicate keys. -/
theorem c2_expire_and_deleted_pass {T : Type} (cfg : Config T) (sz now : Nat)
    (st : CacheState T) (f : T → T → Bool)
    (hnd : (keys st.data).Nodup) (hndp : (keys st.prev).Nodup)
    (hstr : ∀ p ∈ st.data, p.1.isStr = true)
    (hcmp : cfg.compareFunc = some f)
    (hit : st.items = st.data.length)
    (hd : st.updDeleted = []) :
    ∃ st1 out, tick cfg sz now st = .ok (st1, out) ∧
      out.deleted =
        (st.data.filter (fun q => goExpired q.2 now)).map (fun q => q.2.value) ++
        (st.prev.filter (fun q =>
          (alookup q.1 (st.data.filter (fun p => !(goExpired p.2 now)))).isNone &&
          !(decide (q.1 ∈ keys (st.data.filter (fun p => goExpired p.2 now)))))).map
          (fun q => q.2.value) ∧
      out.expiryCalls = (st.data.filter (fun q => goExpired q.2 now)).flatMap
        (fun q => cfg.expiryMws.map (fun m => (m, q.1.strOf, q.2))) ∧
      st1.data = st.data.filter (fun q => !(goExpired q.2 now)) ∧
      st1.items = st1.data.length ∧
      st1.mem = st.mem - (st.data.filter (fun q => goExpired q.2 now)).length * (sz : Int) ∧
      (∀ q ∈ st.prev,
        ((alookup q.1 (st.data.filter (fun p => !(goExpired p.2 now)))).isNone &&
         !(decide (q.1 ∈ keys (st.data.filter (fun p => goExpired p.2 now))))) =
        (alookup q.1 st.data).isNone) ∧
      (keys (st.data.filter (fun q => goExpired q.2 now)) ++
       keys (st.prev.filter (fun q =>
         (alookup q.1 (st.data.filter (fun p => !(goExpired p.2 now)))).isNone &&
         !(decide (q.1 ∈ keys (st.data.filter (fun p => goExpired p.2 now))))))).Nodup := by
  refine ⟨_, _, tick_ok_char cfg sz now st f hnd (fun p hp _ => hstr p hp) hcmp hit,
    ?_, rfl, rfl, rfl, rfl, ?_, ?_⟩
  · rw [hd]
    simp
  · intro q hq
    rcases hlk : alookup q.1 st.data with _ | v
    · have hnk : q.1 ∉ keys st.data := alookup_eq_none.mp hlk
      have h1 : q.1 ∉ keys (st.data.filter (fun p => !(goExpired p.2 now))) :=
        fun hmem =>
          hnk ((List.Sublist.map Prod.fst (List.filter_sublist st.data)).subset hmem)
      have h2 : q.1 ∉ keys (st.data.filter (fun p => goExpired p.2 now)) :=
        fun hmem =>
          hnk ((List.Sublist.map Prod.fst (List.filter_sublist st.data)).subset hmem)
      simp [alookup_eq_none.mpr h1, h2, hlk]
    · have hmem : (q.1, v) ∈ st.data := mem_of_alookup hlk
      by_cases hexp : goExpired v now = true
      · have hf : (q.1, v) ∈ st.data.filter (fun p => goExpired p.2 now) :=
          List.mem_filter.mpr ⟨hmem, hexp⟩
        have h2 : q.1 ∈ keys (st.data.filter (fun p => goExpired p.2 now)) :=
          List.mem_map.mpr ⟨(q.1, v), hf, rfl⟩
        simp [hlk, h2]
      · rw [Bool.not_eq_true] at hexp
        have hf : (q.1, v) ∈ st.data.filter (fun p => !(goExpired p.2 now)) :=
          List.mem_filter.mpr ⟨hmem, by simp [hexp]⟩
        have h1 : q.1 ∈ keys (st.data.filter (fun p => !(goExpired p.2 now))) :=
          List.mem_map.mpr ⟨(q.1, v), hf, rfl⟩
        rcases hsm : alookup q.1 (st.data.filter (fun p => !(goExpired p.2 now)))
            with _ | w
        · exact absurd h1 (alookup_eq_none.mp hsm)
        · simp [hlk, hsm]
  · refine List.Nodup.append
      (List.Nodup.sublist (List.Sublist.map Prod.fst (List.filter_sublist _)) hnd)
      (List.Nodup.sublist (List.Sublist.map Prod.fst (List.filter_sublist _)) hndp) ?_
    intro x hxE hxP
    simp only [keys] at hxP
    obtain ⟨q, hq, hq1⟩ := List.mem_map.mp hxP
    have hq2 := (List.mem_filter.mp hq).2
    simp only [Bool.and_eq_true] at hq2
    have hq3 := hq2.2
    rw [hq1] at hq3
    simp only [keys] at hxE
    rw [decide_eq_true hxE] at hq3
    simp at hq3

/-- C2 witness: the theorem applied to the concrete state `stW` at time 10
(`"b"` expires, `"e"` was externally deleted). -/
theorem c2_witness :
    ∃ st1 out, tick cfgW 24 10 stW = .ok (st1, out) ∧
      out.deleted =
        (stW.data.filter (fun q => goExpired q.2 10)).map (fun q => q.2.value) ++
        (stW.prev.filter (fun q =>
          (alookup q.1 (stW.data.filter (fun p => !(goExpired p.2 10)))).isNone &&
          !(decide (q.1 ∈ keys (stW.data.filter (fun p => goExpired p.2 10)))))).map
          (fun q => q.2.value) ∧
      out.expiryCalls = (stW.data.filter (fun q => goExpired q.2 10)).flatMap
        (fun q => cfgW.expiryMws.map (fun m => (m, q.1.strOf, q.2))) ∧
      st1.data = stW.data.filter (fun q => !(goExpired q.2 10)) ∧
      st1.items = st1.data.length ∧
      st1.mem = stW.mem -
        (stW.data.filter (fun q => goExpired q.2 10)).length * ((24 : Nat) : Int) ∧
      (∀ q ∈ stW.prev,
        ((alookup q.1 (stW.data.filter (fun p => !(goExpired p.2 10)))).isNone &&
         !(decide (q.1 ∈ keys (stW.data.filter (fun p => goExpired p.2 10))))) =
        (alookup q.1 stW.data).isNone) ∧
      (keys (stW.data.filter (fun q => goExpired q.2 10)) ++
       keys (stW.prev.filter (fun q =>
         (alookup q.1 (stW.data.filter (fun p => !(goExpired p.2 10)))).isNone &&
         !(decide (q.1 ∈ keys (stW.data.filter (fun p => goExpired p.2 10))))))).Nodup :=
  c2_expire_and_deleted_pass cfgW 24 10 stW (fun a b => a == b)
    (by decide) (by decide) (by decide) rfl (by decide) rfl

theorem sizeEstimates_eq {T : Type} (sz : Nat) (l : List (GoAny × Item T)) :
    sizeEstimates sz l = (l.length : Int) * sz := by
  induction l with
  | nil => simp [sizeEstimates]
  | cons a rest ih =>
    simp only [sizeEstimates, List.map_cons, List.sum_cons, List.length_cons] at ih ⊢
    rw [ih]
    push_cast
    ring

theorem WF_set {T : Type} {sz : Nat} {st : CacheState T} (k : GoAny) (v : T)
    (es : List Nat) (h : WF sz st) : WF sz (set sz st k v es) := by
  obtain ⟨hn, hi, hm⟩ := h
  rcases hlk : alookup k st.data with _ | old
  · have hnk : k ∉ keys st.data := alookup_eq_none.mp hlk
    refine ⟨nodup_keys_ainsert hn, rfl, ?_⟩
    simp only [set, hlk]
    rw [sizeEstimates_eq, length_ainsert, if_neg hnk, hm, sizeEstimates_eq]
    push_cast
    ring
  · have hnk : k ∈ keys st.data := alookup_isSome_iff.mp (by simp [hlk])
    refine ⟨nodup_keys_ainsert hn, rfl, ?_⟩
    simp only [set, hlk]
    rw [sizeEstimates_eq, length_ainsert, if_pos hnk, hm, sizeEstimates_eq]
    ring

theorem WF_deleteKey {T : Type} {sz : Nat} {st : CacheState T} (k : GoAny)
    (h : WF sz st) : WF sz (deleteKey sz st k) := by
  obtain ⟨hn, hi, hm⟩ := h
  rcases hlk : alookup k st.data with _ | old
  · simpa [deleteKey, hlk] using ⟨hn, hi, hm⟩
  · have hnk : k ∈ keys st.data := alookup_isSome_iff.mp (by simp [hlk])
    have hlen := length_aerase (l := st.data) hnk
    simp only [deleteKey, hlk]
    refine ⟨?_, rfl, ?_⟩
    · exact List.Nodup.sublist (List.Sublist.map Prod.fst (aerase_sublist k st.data)) hn
    · show st.mem - (sz : Int) = sizeEstimates sz (aerase k st.data)
      rw [sizeEstimates_eq, hm, sizeEstimates_eq]
      have hc : ((aerase k st.data).length : Int) + 1 = (st.data.length : Int) := by
        exact_mod_cast hlen
      rw [← hc]
      ring

theorem WF_deleteAll {T : Type} {sz : Nat} (st : CacheState T) :
    WF sz (deleteAll st) := by
  exact ⟨List.nodup_nil, rfl, by simp [deleteAll, sizeEstimates]⟩

theorem WF_tickOp {T : Type} (cfg : Config T) {sz : Nat} (now : Nat)
    {st : CacheState T} (h : WF sz st) : WF sz (execOp cfg sz st (.tickOp now)) := by
  obtain ⟨hn, hi, hm⟩ := h
  simp only [execOp]
  rcases he : expireLoop cfg.expiryMws now sz st.data
      ⟨st.data, st.items, st.mem, st.updDeleted, [], []⟩ with e | a
  · simp only [tick, he]
    exact ⟨hn, hi, hm⟩
  · rcases hcu : cuLoop cfg.compareFunc st.prev a.data st.updCreated st.updUpdated
        with e | p
    · simp only [tick, he, hcu]
      exact ⟨hn, hi, hm⟩
    · obtain ⟨cs, us⟩ := p
      simp only [tick, he, hcu]
      obtain ⟨h1, h2, h3, _, _, _⟩ :=
        expireLoop_ok_eq cfg.expiryMws now sz st.data _ a hn hn (fun p hp => hp) hi he
      have hpost : a.data = st.data.filter (fun q => !(goExpired q.2 now)) := by
        rw [h1]
        exact filter_not_mem_keys_filter hn _
      have hsplit :
          (st.data.filter (fun q => goExpired q.2 now)).length +
            (st.data.filter (fun q => !(goExpired q.2 now))).length =
            st.data.length :=
        length_filter_split st.data (fun q => goExpired q.2 now)
      refine ⟨?_, h2, ?_⟩
      · rw [hpost]
        exact List.Nodup.sublist (List.Sublist.map Prod.fst (List.filter_sublist _)) hn
      · rw [h3, hm, sizeEstimates_eq, sizeEstimates_eq, hpost]
        have hc : ((st.data.filter (fun q => goExpired q.2 now)).length : Int) +
            ((st.data.filter (fun q => !(goExpired q.2 now))).length : Int) =
            (st.data.length : Int) := by
          exact_mod_cast hsplit
        rw [← hc]
        ring

theorem WF_execOp {T : Type} (cfg : Config T) {sz : Nat} {st : CacheState T}
    (op : CacheOp T) (h : WF sz st) : WF sz (execOp cfg sz st op) := by
  cases op with
  | setOp k v es => exact WF_set k v es h
  | delOp k => exact WF_deleteKey k h
  | delAllOp => exact WF_deleteAll st
  | tickOp now => exact WF_tickOp cfg now h

theorem WF_execOps {T : Type} (cfg : Config T) (sz : Nat) :
    ∀ (ops : List (CacheOp T)) (st : CacheState T),
    WF sz st → WF sz (execOps cfg sz st ops) := by
  intro ops
  induction ops with
  | nil => exact fun st h => h
  | cons op rest ih => exact fun st h => ih _ (WF_execOp cfg op h)

/-- C3: after every sequence of `Set`/`Delete`/`DeleteAll` calls and ticks
starting from `New`, the `items` metric equals the number of entries in the
store and `memoryUsageBytes` equals the sum of the per-item size estimates
of the stored entries (the bookkeeping in the embedded operations is
incremental, mirroring `updateMemoryUsage`); moreover both metrics are
exactly 0 after a final `DeleteAll`. -/
theorem c3_metrics_invariant {T : Type} (cfg : Config T) (sz : Nat)
    (ops : List (CacheOp T)) :
    WF sz (execOps cfg sz (newCache T) ops) ∧
    (execOps cfg sz (newCache T) (ops ++ [.delAllOp])).mem = 0 ∧
    (execOps cfg sz (newCache T) (ops ++ [.delAllOp])).items = 0 := by
  refine ⟨WF_execOps cfg sz ops (newCache T) ⟨List.nodup_nil, rfl, rfl⟩, ?_, ?_⟩
  · rw [execOps, List.foldl_append]
    rfl
  · rw [execOps, List.foldl_append]
    rfl

/-- C4: `Get(key)` returns `(zero, false)` and increments `misses` exactly
when the key is absent or its expiry is non-zero and strictly before the
call time (independently of any tick); otherwise it returns the stored
value with `found = true` and increments `hits`.  Immediately after
`Set(key, value)` without expiry, `Get(key)` returns `(value, true)`. -/
theorem c4_get_semantics {T : Type} [Inhabited T] (sz : Nat) (st : CacheState T)
    (k : GoAny) (now : Nat) (v : T) :
    ((alookup k st.data = none ∨
        ∃ it, alookup k st.data = some it ∧ goExpired it now = true) →
      get st k now = ((default, false), { st with misses := st.misses + 1 })) ∧
    (∀ it, alookup k st.data = some it → goExpired it now = false →
      get st k now = ((it.value, true), { st with hits := st.hits + 1 })) ∧
    (get (set sz st k v []) k now).1 = (v, true) := by
  refine ⟨?_, ?_, ?_⟩
  · rintro (h | ⟨it, hlk, hexp⟩)
    · simp [get, h]
    · simp [get, hlk, hexp]
  · intro it hlk hexp
    simp [get, hlk, hexp]
  · have hsome : alookup k (set sz st k v []).data = some ⟨v, 0⟩ := by
      simp only [set]
      exact alookup_ainsert_self k ⟨v, 0⟩ st.data
    simp [get, hsome, goExpired]

/-- C4 witness: the theorem applied to `stW` at time 10: a miss on an
absent key, a miss on the already-expired key `"b"` before any tick, a hit
on `"a"`, and a `Set`-then-`Get` round trip. -/
theorem c4_witness :
    get stW (.str "zz") 10 = (((default : Nat), false),
      { stW with misses := stW.misses + 1 }) ∧
    get stW (.str "b") 10 = (((default : Nat), false),
      { stW with misses := stW.misses + 1 }) ∧
    get stW (.str "a") 10 = ((1, true), { stW with hits := stW.hits + 1 }) ∧
    (get (set 24 stW (.str "q") 42 []) (.str "q") 10).1 = (42, true) :=
  ⟨(c4_get_semantics 24 stW (.str "zz") 10 42).1 (Or.inl (by decide)),
   (c4_get_semantics 24 stW (.str "b") 10 42).1 (Or.inr ⟨⟨2, 5⟩, by decide, by decide⟩),
   (c4_get_semantics 24 stW (.str "a") 10 42).2.1 ⟨1, 0⟩ (by decide) (by decide),
   (c4_get_semantics 24 stW (.str "q") 10 42).2.2⟩

/-- C5 counterexample: with a positive interval and a missing (nil)
equality predicate, starting `Maintain` succeeds — the missing predicate is
not detected or rejected there — and the failure instead surfaces inside a
tick's comparison step, as a panic from calling the nil `compareFunc`. -/
theorem c5_counterexample :
    maintainStart cfgNone = .ok () ∧
    tick cfgNone 24 5 stC5 = .error .nilFuncCall :=
  ⟨rfl, rfl⟩

/-- C5 amended: only the non-positive tick interval is rejected when
`Maintain` starts (`time.NewTicker` panics); the start-up examines the
interval alone, never the equality predicate, and a missing predicate
surfaces later, as a nil-function panic inside the created/updated
comparison step of the first tick that compares an entry present in the
snapshot. -/
theorem c5_amended_config_checks {T : Type} (cfg : Config T) :
    (maintainStart cfg = .ok () ↔ 0 < cfg.interval) ∧
    (maintainStart cfg = maintainStart
      ({ interval := cfg.interval, compareFunc := none,
         expiryMws := cfg.expiryMws } : Config T)) ∧
    (∀ (prev l : List (GoAny × Item T)) (cs us : List T) (p : GoAny × Item T),
      cfg.compareFunc = none → p ∈ l → (alookup p.1 prev).isSome = true →
      cuLoop cfg.compareFunc prev l cs us = .error .nilFuncCall) := by
  refine ⟨?_, rfl, ?_⟩
  · unfold maintainStart
    split
    · next h =>
      simp
      omega
    · next h =>
      simp
      omega
  · intro prev l cs us p hcmp hp hsome
    rw [hcmp]
    exact cuLoop_none_err prev l cs us p hp hsome

/-- C5 amended witness: applied to `cfgNone` and a one-entry store whose
key is in the snapshot. -/
theorem c5_witness :
    (maintainStart cfgNone = .ok () ↔ 0 < cfgNone.interval) ∧
    cuLoop cfgNone.compareFunc [(.str "a", Item.mk 0 0)] [(.str "a", Item.mk 0 0)]
      [] [] = .error .nilFuncCall :=
  ⟨(c5_amended_config_checks cfgNone).1,
   (c5_amended_config_checks cfgNone).2.2 [(.str "a", ⟨0, 0⟩)] [(.str "a", ⟨0, 0⟩)]
     [] [] (.str "a", ⟨0, 0⟩) rfl (by decide) (by decide)⟩

theorem stop_stuck_invariant {s1 s2 : StopSys}
    (h : Relation.ReflTransGen StopStep s1 s2) (h1 : s1.phase = .stopped) :
    s2.phase = .stopped ∧ s1.pendingStops ≤ s2.pendingStops := by
  induction h with
  | refl => exact ⟨h1, le_refl _⟩
  | tail hr hstep ih =>
    obtain ⟨hp, hle⟩ := ih
    cases hstep with
    | callStop p n => exact ⟨hp, Nat.le_succ_of_le hle⟩
    | startLoop n => exact absurd hp (by simp)
    | tickStep n => exact absurd hp (by simp)
    | rendezvous n => exact absurd hp (by simp)

/-- C6 counterexample: after the `Maintain` loop has stopped, a caller
blocked in `Stop`'s channel send is never released: no reachable state of
the cancellation protocol completes the pending send, so `Stop` after the
loop has stopped blocks forever — it is neither idempotent nor
non-blocking. -/
theorem c6_counterexample :
    ¬ ∃ s : StopSys, Relation.ReflTransGen StopStep ⟨.stopped, 1⟩ s ∧
      s.pendingStops = 0 := by
  rintro ⟨s, hr, h0⟩
  have h : 1 ≤ s.pendingStops := (stop_stuck_invariant hr rfl).2
  omega

/-- C6 amended: `Stop` is a blocking rendezvous send on the unbuffered
`stopChan`: while the loop runs a pending `Stop` can complete (by the
rendezvous that stops the loop), but once the loop has stopped every
pending or later `Stop` call remains blocked forever — the count of blocked
callers never decreases. -/
theorem c6_amended_stop_blocks (n : Nat) :
    StopStep ⟨.running, n + 1⟩ ⟨.stopped, n⟩ ∧
    (∀ s : StopSys, Relation.ReflTransGen StopStep ⟨.stopped, n + 1⟩ s →
      s.phase = .stopped ∧ n + 1 ≤ s.pendingStops) :=
  ⟨StopStep.rendezvous n, fun _ hr => stop_stuck_invariant hr rfl⟩

/-- C6 witness: the amended theorem at `n = 0` and the reflexive trace. -/
theorem c6_witness :
    StopStep ⟨.running, 1⟩ ⟨.stopped, 0⟩ ∧
    ((⟨.stopped, 1⟩ : StopSys).phase = .stopped ∧
      1 ≤ (⟨.stopped, 1⟩ : StopSys).pendingStops) :=
  ⟨(c6_amended_stop_blocks 0).1,
   (c6_amended_stop_blocks 0).2 ⟨.stopped, 1⟩ Relation.ReflTransGen.refl⟩

/-- C7: the snapshot is replaced wholesale by a full copy of the live store
at the end of each tick's locked section — so at that point `prev` equals
`data` — and none of `Set`, `Get`, `GetAll`, `Delete`, `DeleteAll` creates,
overwrites or removes any snapshot entry. -/
theorem c7_snapshot_frame {T : Type} [Inhabited T] (cfg : Config T) (sz now : Nat)
    (st : CacheState T) (k : GoAny) (v : T) (es : List Nat) :
    (set sz st k v es).prev = st.prev ∧
    ((get st k now).2).prev = st.prev ∧
    ((getAll st now).2).prev = st.prev ∧
    (deleteKey sz st k).prev = st.prev ∧
    (deleteAll st).prev = st.prev ∧
    (∀ st1 out, tick cfg sz now st = .ok (st1, out) → st1.prev = st1.data) := by
  refine ⟨rfl, ?_, rfl, ?_, rfl, ?_⟩
  · rcases hlk : alookup k st.data with _ | it
    · simp [get, hlk]
    · by_cases hexp : goExpired it now = true <;> simp [get, hlk, hexp]
  · rcases hlk : alookup k st.data with _ | it <;> simp [deleteKey, hlk]
  · intro st1 out h
    rcases he : expireLoop cfg.expiryMws now sz st.data
        ⟨st.data, st.items, st.mem, st.updDeleted, [], []⟩ with e | a
    · simp only [tick, he] at h
      exact absurd h (by simp)
    · rcases hcu : cuLoop cfg.compareFunc st.prev a.data st.updCreated st.updUpdated
          with e | p
      · simp only [tick, he, hcu] at h
        exact absurd h (by simp)
      · obtain ⟨cs, us⟩ := p
        simp only [tick, he, hcu, Except.ok.injEq, Prod.mk.injEq] at h
        obtain ⟨h1, h2⟩ := h
        rw [← h1]

/-- C7 witness: the frame conditions at `stW`, and `prev = data` for the
concrete post-tick state. -/
theorem c7_witness :
    stWpost.prev = stWpost.data ∧ (deleteKey 24 stW (.str "a")).prev = stW.prev :=
  ⟨(c7_snapshot_frame cfgW 24 10 stW (.str "a") 0 []).2.2.2.2.2 stWpost outW rfl,
   (c7_snapshot_frame cfgW 24 10 stW (.str "a") 0 []).2.2.2.1⟩

/-- C8: `Delete(key)` on an absent key is a no-op, not an error: the whole
state (store, `items`, `memoryUsageBytes`, `hits`, `misses`) is unchanged;
on a present key it removes the binding and updates `memoryUsageBytes` and
`items`, leaving the counters and the snapshot alone. -/
theorem c8_delete_semantics {T : Type} (sz : Nat) (st : CacheState T) (k : GoAny) :
    (alookup k st.data = none → deleteKey sz st k = st) ∧
    (∀ it, alookup k st.data = some it →
      (deleteKey sz st k).data = aerase k st.data ∧
      (deleteKey sz st k).items = (aerase k st.data).length ∧
      (deleteKey sz st k).mem = st.mem - sz ∧
      (deleteKey sz st k).hits = st.hits ∧
      (deleteKey sz st k).misses = st.misses ∧
      (deleteKey sz st k).prev = st.prev) := by
  constructor
  · intro h
    simp [deleteKey, h]
  · intro it h
    simp [deleteKey, h]

/-- C8 witness: deleting the absent key `"zz"` from `stW` is the identity;
deleting the present key `"a"` removes it and subtracts its size. -/
theorem c8_witness :
    deleteKey 24 stW (.str "zz") = stW ∧
    (deleteKey 24 stW (.str "a")).data = aerase (.str "a") stW.data ∧
    (deleteKey 24 stW (.str "a")).mem = stW.mem - 24 :=
  ⟨(c8_delete_semantics 24 stW (.str "zz")).1 (by decide),
   ((c8_delete_semantics 24 stW (.str "a")).2 ⟨1, 0⟩ (by decide)).1,
   ((c8_delete_semantics 24 stW (.str "a")).2 ⟨1, 0⟩ (by decide)).2.2.1⟩

/-- C9: the expire pass casts each expired entry's key to a string when
dispatching expiry callbacks, so an expired entry with a non-string key
makes the tick panic on the failed `key.(string)` assertion (whenever at
least one expiry middleware is registered, i.e. whenever the dispatch loop
runs); with only string keys the expire pass is total. -/
theorem c9_expiry_cast {T : Type} (cfg : Config T) (sz now : Nat)
    (st : CacheState T) (k : GoAny) (it : Item T) :
    ((k, it) ∈ st.data → goExpired it now = true → k.isStr = false →
      cfg.expiryMws ≠ [] → tick cfg sz now st = .error .badStringCast) ∧
    ((∀ p ∈ st.data, p.1.isStr = true) →
      ∃ a, expireLoop cfg.expiryMws now sz st.data
        ⟨st.data, st.items, st.mem, st.updDeleted, [], []⟩ = .ok a) := by
  constructor
  · intro hmem hexp hstr hmws
    have he := expireLoop_err cfg.expiryMws now sz hmws st.data
      ⟨st.data, st.items, st.mem, st.updDeleted, [], []⟩ (k, it) hmem hexp hstr
    simp only [tick, he]
  · intro hstr
    exact expireLoop_isOk cfg.expiryMws now sz st.data _ (fun p hp _ => hstr p hp)

/-- C9 witness: the expired non-string key of `stBad` makes the tick panic
under `cfgW` (one expiry middleware registered); the all-string store `stW`
keeps the expire pass total. -/
theorem c9_witness :
    tick cfgW 24 10 stBad = .error .badStringCast ∧
    (∃ a, expireLoop cfgW.expiryMws 10 24 stW.data
      ⟨stW.data, stW.items, stW.mem, stW.updDeleted, [], []⟩ = .ok a) :=
  ⟨(c9_expiry_cast cfgW 24 10 stBad (.other 3) ⟨1, 5⟩).1 (by decide) (by decide)
      (by decide) (by decide),
   (c9_expiry_cast cfgW 24 10 stW (.other 0) ⟨0, 0⟩).2 (by decide)⟩

/-- C10: `Set` takes zero or more expiry timestamps; with none the stored
item carries the zero timestamp and never counts as expired, and with more
than one only the first is kept — every later timestamp is ignored. -/
theorem c10_variadic_expiry {T : Type} (sz : Nat) (st : CacheState T) (k : GoAny)
    (v : T) (e : Nat) (rest : List Nat) :
    alookup k (set sz st k v []).data = some ⟨v, 0⟩ ∧
    (∀ now, goExpired (⟨v, 0⟩ : Item T) now = false) ∧
    set sz st k v (e :: rest) = set sz st k v [e] := by
  refine ⟨?_, ?_, rfl⟩
  · simp only [set]
    exact alookup_ainsert_self k ⟨v, 0⟩ st.data
  · intro now
    simp [goExpired]

end SimpleCache
